import Mathlib

/-!
Verification of the hops-sensory-analysis pipeline
(`1_clean_data.ipynb`, `2_keywords_phrases.ipynb`).

Text is modelled as `List Nat` of code points.  The Python regexes in the
source operate with `re.IGNORECASE` and `\b` word boundaries; we model the
ASCII fragment (`\w` = `[A-Za-z0-9_]`, lowercasing = ASCII lowercasing),
which covers the whole corpus and every pattern appearing in the source.
-/

namespace HopsSensory

/-- Word-character test, Python's `re` `\w` (ASCII fragment). -/
def W (c : Nat) : Bool :=
  (65 ≤ c && c ≤ 90) || (97 ≤ c && c ≤ 122) || (48 ≤ c && c ≤ 57) || (c == 95)

/-- ASCII lowercasing of one code point (model of `str.lower` /
`re.IGNORECASE` folding on the ASCII range). -/
def low (c : Nat) : Nat := if 65 ≤ c ∧ c ≤ 90 then c + 32 else c

/-- Code points of a string literal, for readable statements. -/
def chars (s : String) : List Nat := s.data.map Char.toNat

/-- Lowercase a whole text. -/
def mapLow (s : List Nat) : List Nat := s.map low

/-! ### Word-boundary regex replacement

Embedding of `re.sub(rf"\b{key}\b", rep, text, flags=re.IGNORECASE)` /
`Series.str.replace(pattern, full, regex=True, case=False)` for a fixed
pattern `key` that begins and ends with a word character (true of every
pattern used by the notebooks).  For such a pattern, `\b` before the match
means "previous character is a non-word character or the string start",
and `\b` after it means "next character is a non-word character or the
string end".  `re.sub` scans the original text left to right, taking
non-overlapping matches; replacement text is never re-scanned. -/
/-- The character following a candidate match (after `n` chars) is a
non-word character, or the match reaches the end of the text. -/
def nextOkB (n : Nat) (s : List Nat) : Bool :=
  match (s.drop n).head? with
  | none => true
  | some d => !W d

/-- A match of `key` starts at the head of `s`.  `pw` records whether the
character just before `s` is a word character (`false` at text start). -/
def hGuardB (key : List Nat) (pw : Bool) (s : List Nat) : Bool :=
  decide (0 < key.length) && !pw && (mapLow (s.take key.length) == mapLow key)
    && nextOkB key.length s

/-- The scanning loop of `re.sub`, with explicit fuel (`fuel ≥ s.length`
always holds at call sites; each step consumes at least one character). -/
def substGo (key rep : List Nat) : Nat → Bool → List Nat → List Nat
  | 0, _, s => s
  | _ + 1, _, [] => []
  | f + 1, pw, c :: rest =>
      if hGuardB key pw (c :: rest) then
        rep ++ substGo key rep f true (List.drop key.length (c :: rest))
      else
        c :: substGo key rep f (W c) rest

/-- One `re.sub(rf"\b{key}\b", rep, s, flags=re.IGNORECASE)` call. -/
def subst (key rep s : List Nat) : List Nat := substGo key rep s.length false s

/-- Scan deciding that no `\b key \b` match starts anywhere in `s`
(`pw` as in `substGo`).  `noOccB key false s = true` iff
`re.search(rf"\b{key}\b", s, re.IGNORECASE)` finds nothing. -/
def noOccB (key : List Nat) (pw : Bool) : List Nat → Bool
  | [] => true
  | c :: rest => !hGuardB key pw (c :: rest) && noOccB key (W c) rest

/-! ### The acronym normalizer (`1_clean_data.ipynb`) -/
/-- The `acronym_map` dictionary, in its source (insertion) order. -/
def acronym_map : List (List Nat × List Nat) :=
  [ (chars "GO", chars "onion garlic")
  , (chars "O/G", chars "onion garlic")
  , (chars "ONG", chars "onion garlic")
  , (chars "DMTS", chars "dimethyl trisulfide")
  , (chars "T2N", chars "trans-2-nonenal")
  , (chars "H2S", chars "hydrogen sulfide")
  , (chars "IPA", chars "india pale ale")
  , (chars "IPL", chars "india pale lager") ]

/-- All replacement rules the normalizer applies to one comment, in
application order: the eight `acronym_map` entries (each matched
case-insensitively, so the key is stored lowercased), followed by the
special-case `ohai` expansion.  The source guards the `ohai` replacement
by a corpus-level occurrence count, but per text this is equivalent to an
unconditional `re.sub` (a text without an occurrence is left unchanged,
see `subst_id`).  The source's other special case (`ipa_pattern`, plural
forms of IPA) only *counts* matches and performs no replacement, so it
contributes no rule here. -/
def rules : List (List Nat × List Nat) :=
  acronym_map.map (fun kr => (mapLow kr.1, kr.2))
    ++ [(chars "ohai", chars "overall hop aroma intensity")]

/-- Apply a list of replacement rules in order. -/
def applyRules (rs : List (List Nat × List Nat)) (s : List Nat) : List Nat :=
  rs.foldl (fun t kr => subst kr.1 kr.2 t) s

/-- The full acronym normalizer applied to one comment text. -/
def normalize (s : List Nat) : List Nat := applyRules rules s

/-! ### Categorical matcher (`2_keywords_phrases.ipynb`) -/
/-- Model of `re.search` of an alternation `\b(k1|k2|…)\b` where every alternative
begins and ends with a word character (true of every pattern in the
source): some alternative has a whole-word case-insensitive match. -/
def searchAny (alts : List (List Nat)) (s : List Nat) : Bool :=
  alts.any (fun k => !noOccB k false s)

/-- The pattern `onion_garlic_pattern = r"\b(onion|garlic)\b"`, as its alternatives. -/
def onion_garlic_pattern : List (List Nat) := [chars "onion", chars "garlic"]

/-- Count `hops_onion_garlic = sum(1 for txt in hops_texts if re.search(onion_garlic_pattern, txt, flags=re.I))`. -/
def hops_onion_garlic (texts : List (List Nat)) : Nat :=
  (texts.filter (fun txt => searchAny onion_garlic_pattern txt)).length

/-- Python's true division `n / total` on counts: raises
`ZeroDivisionError` when `total = 0` (modelled as `none`), otherwise the
exact quotient (modelled in `ℚ` in place of IEEE floats; the claims under
study concern totality and equality of identical expressions only). -/
def pyDiv (n total : Nat) : Option ℚ :=
  if total = 0 then none else some ((n : ℚ) / (total : ℚ))

/-- The printed percentage `hops_onion_garlic / len(hops_texts) * 100`. -/
def onion_garlic_pct (texts : List (List Nat)) : Option ℚ :=
  (pyDiv (hops_onion_garlic texts) texts.length).map (fun q => q * 100)

/-- The `descriptor_categories` dictionary: label, alternatives of the
regex alternation, in source order. -/
def descriptor_categories : List (List Nat × List (List Nat)) :=
  [ (chars "tropical fruits",
      [chars "tropical", chars "pineapple", chars "mango", chars "passion",
       chars "papaya", chars "guava", chars "lychee"])
  , (chars "citrus fruits",
      [chars "citrus", chars "orange", chars "grapefruit", chars "lemon",
       chars "lime", chars "tangerine", chars "mandarin", chars "yuzu",
       chars "tangelo"])
  , (chars "stone fruits",
      [chars "stone fruit", chars "peach", chars "nectarine",
       chars "apricot", chars "plum"])
  , (chars "fruit (general)", [chars "fruit", chars "fruity"])
  , (chars "onion garlic", onion_garlic_pattern)
  , (chars "melons",
      [chars "melon", chars "watermelon", chars "cantaloupe",
       chars "honeydew"])
  , (chars "berries",
      [chars "berry", chars "strawberry", chars "blackberry",
       chars "blueberry", chars "raspberry"]) ]

/-- Count `n = sum(bool(re.search(pattern, text, flags=re.I)) for text in texts)`. -/
def category_n (alts : List (List Nat)) (texts : List (List Nat)) : Nat :=
  texts.countP (fun t => searchAny alts t)

/-- One row of the prevalence table. -/
structure PrevRow where
  category : List Nat
  n_comments : Nat
  pct_comments : ℚ
  n_total : Nat
deriving DecidableEq

/-- The prevalence-table loop: for each category, count matching comments
and divide by the partition size.  The division `n / hops_total` is
unguarded in the source, so a zero-sized partition raises
`ZeroDivisionError` at the first row (modelled by `none`). -/
def prevRows (texts : List (List Nat)) :
    List (List Nat × List (List Nat)) → Option (List PrevRow)
  | [] => some []
  | cat :: cats => do
      let p ← pyDiv (category_n cat.2 texts) texts.length
      let rest ← prevRows texts cats
      pure ({ category := cat.1, n_comments := category_n cat.2 texts,
              pct_comments := p, n_total := texts.length } :: rest)

/-- Table `hops_prevalence` (and identically `beer_prevalence`) before the
display sort: the list of per-category rows for one partition. -/
def hops_prevalence (texts : List (List Nat)) : Option (List PrevRow) :=
  prevRows texts descriptor_categories

/-! ### Tokenizer / lemmatizer (`2_keywords_phrases.ipynb`)

NLTK's `word_tokenize`, the WordNet lemmatizer and the stopword list are
external collaborators (spec §6); analyses are stated over an arbitrary
`tokenize`/`lem` function and an arbitrary base stopword list wherever
possible.  For concrete evaluations we use `wsSplit` (whitespace
splitting), which is what `word_tokenize` computes on the
punctuation-free text produced by `cleanText`. -/
/-- Whitespace test, `\s` (ASCII fragment). -/
def Sp (c : Nat) : Bool := c == 32 || (9 ≤ c && c ≤ 13)

/-- ASCII digit test (`\d`). -/
def isDig (c : Nat) : Bool := 48 ≤ c && c ≤ 57

/-- Cleaning steps `text = text.lower()`; `text = re.sub(r"[^\w\s]", "", text)`;
`text = re.sub(r"\d+", "", text)` (removing every digit run removes
exactly the digit characters). -/
def cleanText (s : List Nat) : List Nat :=
  ((s.map low).filter (fun c => W c || Sp c)).filter (fun c => !isDig c)

/-- Whitespace splitting, dropping empty pieces: the behaviour of
`word_tokenize` on text containing only word characters and whitespace. -/
def wsSplitGo (acc : List Nat) : List Nat → List (List Nat)
  | [] => if acc = [] then [] else [acc.reverse]
  | c :: rest =>
      if Sp c then
        if acc = [] then wsSplitGo [] rest
        else acc.reverse :: wsSplitGo [] rest
      else wsSplitGo (c :: acc) rest

/-- Tokenize a cleaned text. -/
def wsSplit (s : List Nat) : List (List Nat) := wsSplitGo [] s

/-- Protected set `important_words = {"not", "no", "very", "never"}`. -/
def important_words : List (List Nat) :=
  [chars "not", chars "no", chars "very", chars "never"]

/-- Membership in `stop_words` after `stop_words -= important_words`:
in the base NLTK stopword list and not protected. -/
def isStopWord (stopBase : List (List Nat)) (t : List Nat) : Bool :=
  stopBase.contains t && !important_words.contains t

/-- Filtered tokens `cleaned_tokens = [lemmatizer.lemmatize(tok) for tok in tokens if tok
not in stop_words and len(tok) > 2]`. -/
def cleaned_tokens (lem : List Nat → List Nat) (stopBase : List (List Nat))
    (toks : List (List Nat)) : List (List Nat) :=
  (toks.filter
    (fun tok => !isStopWord stopBase tok && decide (2 < tok.length))).map lem

/-- The per-comment body of the n-gram preprocessing loop. -/
def procText (tokenize : List Nat → List (List Nat))
    (lem : List Nat → List Nat) (stopBase : List (List Nat))
    (text : List Nat) : List (List Nat) :=
  cleaned_tokens lem stopBase (tokenize (cleanText text))

/-! ### Missing / null comment text (C2)

A missing `Comments` cell is a pandas `NaN`; it survives the normalizer
(`Series.str.replace` propagates NaN) and lands in the interchange data,
so the second notebook's loops receive it as a non-string value.  Nullable
text is modelled as `Option (List Nat)`; an operation that would raise on
the null value returns `none`. -/
/-- Function `word_count` of `1_clean_data.ipynb`: guarded by `pd.isna`, a missing
text counts as 0 words. -/
def word_count (tokenize : List Nat → List (List Nat)) :
    Option (List Nat) → Nat
  | none => 0
  | some t => (tokenize t).length

/-- The n-gram preprocessing loop body on a nullable text:
`text.lower()` on the NaN float raises `AttributeError` (no guard in the
source), modelled by `none`. -/
def procTextN (tokenize : List Nat → List (List Nat))
    (lem : List Nat → List Nat) (stopBase : List (List Nat)) :
    Option (List Nat) → Option (List (List Nat))
  | none => none
  | some t => some (procText tokenize lem stopBase t)

/-- Categorical matching on a nullable text: `re.search(pattern, nan)`
raises `TypeError` (no guard in the source), modelled by `none`. -/
def searchAnyN (alts : List (List Nat)) :
    Option (List Nat) → Option Bool
  | none => none
  | some t => some (searchAny alts t)

/-- POS extraction on a nullable text: `nlp(nan)` raises `TypeError` (no
guard in the source); on a string the spaCy tagger is an external
collaborator returning (token, POS-tag) pairs, from which the adjectives
are selected. -/
def pos_adjectives (tagger : List Nat → List (List Nat × List Nat)) :
    Option (List Nat) → Option (List (List Nat))
  | none => none
  | some t => some (((tagger t).filter (fun p => p.2 = chars "ADJ")).map (·.1))

/-! ### N-gram counter (`2_keywords_phrases.ipynb`) -/
/-- Bigram loop `for i in range(len(cleaned_tokens) - 1): bigrams.append(f"{cleaned_tokens[i]} {cleaned_tokens[i+1]}")`:
each adjacent pair of one comment's token sequence, joined by a space. -/
def bigramsOf : List (List Nat) → List (List Nat)
  | a :: b :: r => (a ++ 32 :: b) :: bigramsOf (b :: r)
  | _ => []

/-- The trigram loop: each adjacent triple, space-joined. -/
def trigramsOf : List (List Nat) → List (List Nat)
  | a :: b :: c :: r => (a ++ 32 :: (b ++ 32 :: c)) :: trigramsOf (b :: c :: r)
  | _ => []

/-- Partition `hops_texts = [item["text"] for item in data if item["sample"] == v]`. -/
def partitionTexts (v : List Nat) (rows : List (List Nat × List Nat)) :
    List (List Nat) :=
  (rows.filter (fun r => r.1 = v)).map (fun r => r.2)

/-- The flat unigram stream of a partition (`hops_words`, via `extend`). -/
def corpusWords (tokenize : List Nat → List (List Nat))
    (lem : List Nat → List Nat) (stopBase : List (List Nat))
    (texts : List (List Nat)) : List (List Nat) :=
  (texts.map (procText tokenize lem stopBase)).flatten

/-- The flat bigram stream of a partition (`hops_bigrams`). -/
def corpusBigrams (tokenize : List Nat → List (List Nat))
    (lem : List Nat → List Nat) (stopBase : List (List Nat))
    (texts : List (List Nat)) : List (List Nat) :=
  (texts.map (fun t => bigramsOf (procText tokenize lem stopBase t))).flatten

/-- The flat trigram stream of a partition (`hops_trigrams`). -/
def corpusTrigrams (tokenize : List Nat → List (List Nat))
    (lem : List Nat → List Nat) (stopBase : List (List Nat))
    (texts : List (List Nat)) : List (List Nat) :=
  (texts.map (fun t => trigramsOf (procText tokenize lem stopBase t))).flatten

/-! ### Record exporter and interchange document (C6)

`records = data[["Sample", "Comments"]].rename(...).to_dict(orient="records")`
followed by `json.dump(records, f, indent=4, ensure_ascii=False)`; the
second notebook reads the file back with `json.load`.  The serializer is
modelled character-for-character (indent-4 layout, the `", "` /
`",\n"` separators, and the escaping `json.dump` performs with
`ensure_ascii=False`: `"`, `\`, the short control escapes and `\u00xx`
for the remaining control characters); the parser models `json.load`
restricted to that grammar. -/
/-- One source row of `Vera Sensory Comments.csv`. -/
structure SrcRow where
  event : List Nat
  sample : List Nat
  comments : List Nat

/-- One exported record, `\x7b"sample": …, "text": …\x7d` in the document. -/
structure Rec where
  sample : List Nat
  text : List Nat
deriving DecidableEq

/-- The projection/rename producing `records`. -/
def records (rows : List SrcRow) : List Rec :=
  rows.map (fun r => { sample := r.sample, text := r.comments })

/-- Lowercase hex digit (as `"\u%04x" % c` prints it). -/
def hexDig (n : Nat) : Nat := if n < 10 then 48 + n else 87 + n

/-- Inverse of `hexDig` (accepting both cases, as `json.load` does). -/
def hexVal (c : Nat) : Option Nat :=
  if 48 ≤ c ∧ c ≤ 57 then some (c - 48)
  else if 97 ≤ c ∧ c ≤ 102 then some (c - 87)
  else if 65 ≤ c ∧ c ≤ 70 then some (c - 55)
  else none

/-- Escaping of one character as `json.dump` performs it under `ensure_ascii=False`. -/
def escChar (c : Nat) : List Nat :=
  if c = 34 then [92, 34]
  else if c = 92 then [92, 92]
  else if c = 8 then [92, 98]
  else if c = 9 then [92, 116]
  else if c = 10 then [92, 110]
  else if c = 12 then [92, 102]
  else if c = 13 then [92, 114]
  else if c < 32 then [92, 117, 48, 48, hexDig (c / 16), hexDig (c % 16)]
  else [c]

/-- Escaped body of a JSON string. -/
def escStr (s : List Nat) : List Nat := (s.map escChar).flatten

/-- One record, laid out as `json.dump` with `indent=4` prints it. -/
def itemText (r : Rec) : List Nat :=
  chars "    \x7b\n        \"sample\": \"" ++ escStr r.sample ++
    chars "\",\n        \"text\": \"" ++ escStr r.text ++ chars "\"\n    \x7d"

/-- The items, joined by the `",\n"` item separator. -/
def itemsText : List Rec → List Nat
  | [] => []
  | [r] => itemText r
  | r :: rest => itemText r ++ chars ",\n" ++ itemsText rest

/-- The whole document `json.dump` writes. -/
def json_dump (rs : List Rec) : List Nat :=
  match rs with
  | [] => chars "[]"
  | _ => chars "[\n" ++ itemsText rs ++ chars "\n]"

/-- Consume an expected literal prefix. -/
def stripPfx : List Nat → List Nat → Option (List Nat)
  | [], s => some s
  | _ :: _, [] => none
  | p :: ps, c :: cs => if p = c then stripPfx ps cs else none

/-- Parse a JSON string body up to (and including) the closing quote,
decoding escapes; returns the decoded content and the rest of the
input. -/
def parseStr : List Nat → Option (List Nat × List Nat)
  | [] => none
  | c :: rest =>
      if c = 34 then some ([], rest)
      else if c = 92 then
        match rest with
        | [] => none
        | e :: rest2 =>
            if e = 34 then (parseStr rest2).map (fun p => (34 :: p.1, p.2))
            else if e = 92 then (parseStr rest2).map (fun p => (92 :: p.1, p.2))
            else if e = 98 then (parseStr rest2).map (fun p => (8 :: p.1, p.2))
            else if e = 116 then (parseStr rest2).map (fun p => (9 :: p.1, p.2))
            else if e = 110 then (parseStr rest2).map (fun p => (10 :: p.1, p.2))
            else if e = 102 then (parseStr rest2).map (fun p => (12 :: p.1, p.2))
            else if e = 114 then (parseStr rest2).map (fun p => (13 :: p.1, p.2))
            else if e = 117 then
              match rest2 with
              | h1 :: h2 :: h3 :: h4 :: rest3 => do
                  let a ← hexVal h1
                  let b ← hexVal h2
                  let cc ← hexVal h3
                  let d ← hexVal h4
                  let p ← parseStr rest3
                  pure ((a * 4096 + b * 256 + cc * 16 + d) :: p.1, p.2)
              | _ => none
            else none
      else (parseStr rest).map (fun p => (c :: p.1, p.2))

/-- Parse one record object in the indent-4 layout. -/
def parseItem (s : List Nat) : Option (Rec × List Nat) := do
  let s1 ← stripPfx (chars "    \x7b\n        \"sample\": \"") s
  let (sample, s2) ← parseStr s1
  let s3 ← stripPfx (chars ",\n        \"text\": \"") s2
  let (text, s4) ← parseStr s3
  let s5 ← stripPfx (chars "\n    \x7d") s4
  pure ({ sample := sample, text := text }, s5)

/-- Parse the item sequence (fuel-bounded; one item consumes at least one
character, so `s.length` fuel suffices). -/
def parseItemsGo : Nat → List Nat → Option (List Rec × List Nat)
  | 0, _ => none
  | f + 1, s => do
      let (r, s1) ← parseItem s
      match stripPfx (chars ",\n") s1 with
      | some s2 => do
          let (rs, s3) ← parseItemsGo f s2
          pure (r :: rs, s3)
      | none => do
          let s2 ← stripPfx (chars "\n]") s1
          pure ([r], s2)

/-- Model of `json.load` on the document grammar the exporter emits; demands the
document be fully consumed, as `json.load` does. -/
def json_load (s : List Nat) : Option (List Rec) :=
  if s = chars "[]" then some []
  else do
    let s1 ← stripPfx (chars "[\n") s
    let (rs, s2) ← parseItemsGo s.length s1
    if s2 = [] then some rs else none

/-! ### Idempotence of the normalizer (C5)

Development plan: `noOccB key false s = true` ("`s` is clean for `key`")
holds for every rule key after one full normalizer pass, and a pass over
a clean text is the identity; idempotence follows.  The decidable side
conditions (`pairOK`) say that no replacement text can contain, or
complete across a junction, a match of any key. -/
/-- First character is a word character (in particular, nonempty). -/
def wordHead (s : List Nat) : Bool :=
  match s.head? with
  | none => false
  | some c => W c

/-- Last character is a word character (in particular, nonempty). -/
def wordEnd (s : List Nat) : Bool :=
  match s.getLast? with
  | none => false
  | some c => W c

/-- Begins and ends with a word character. -/
def goodEnds (s : List Nat) : Bool := wordHead s && wordEnd s

/-- Word-character status of the character preceding the rest of a scan
after reading `u`, starting from status `pw`. -/
def pwAfter (pw : Bool) (u : List Nat) : Bool := u.foldl (fun _ c => W c) pw

/-- Condition that `K` (a lowercased key) does not occur case-insensitively as a
contiguous substring of `rep`, at any position, boundaries ignored. -/
def noSubMatch (K rep : List Nat) : Bool :=
  (List.range (rep.length + 1)).all (fun i =>
    !(decide (K.length + i ≤ rep.length) &&
      (mapLow ((rep.drop i).take K.length) == K)))

/-- For every index `j ≥ 1` at which `K` has a non-word character, the
last `j` characters of `rep` do not case-insensitively match `K.take j`
(no match of `K` can start inside `rep` and leave it through its end). -/
def noEndSpan (K rep : List Nat) : Bool :=
  (List.range K.length).all (fun j =>
    (j == 0) || W (K.getD j 0) ||
      !(mapLow (rep.drop (rep.length - j)) == K.take j))

/-- For every index `j` with `j + 1 < K.length` at which `K` has a
non-word character, `rep` does not begin with a case-insensitive match of
`K.drop (j + 1)` (no match of `K` can enter `rep` from the left). -/
def noStartSpan (K rep : List Nat) : Bool :=
  (List.range K.length).all (fun j =>
    decide (K.length ≤ j + 1) || W (K.getD j 0) ||
      !(mapLow (rep.take (K.length - (j + 1))) == K.drop (j + 1)))

/-- All side conditions under which one `re.sub` pass for `(key, rep)`
neither creates nor misses occurrences of `key'`; decidable, checked by
`decide` on the concrete rule table. -/
def pairOK (key' key rep : List Nat) : Bool :=
  goodEnds (mapLow key) && goodEnds (mapLow key') && goodEnds rep &&
    decide (key'.length ≤ rep.length) && noSubMatch (mapLow key') rep &&
    noEndSpan (mapLow key') rep && noStartSpan (mapLow key') rep

/-! ### Theorems -/

theorem W_low (c : Nat) : W (low c) = W c := by
  unfold low
  by_cases h : 65 ≤ c ∧ c ≤ 90
  · rw [if_pos h, Bool.eq_iff_iff]
    simp only [W, Bool.or_eq_true, Bool.and_eq_true, decide_eq_true_eq, beq_iff_eq]
    omega
  · rw [if_neg h]

theorem low_low (c : Nat) : low (low c) = low c := by
  unfold low
  by_cases h : 65 ≤ c ∧ c ≤ 90
  · rw [if_pos h, if_neg (by omega)]
  · rw [if_neg h, if_neg h]

theorem mapLow_mapLow (s : List Nat) : mapLow (mapLow s) = mapLow s := by
  simp [mapLow, Function.comp, low_low]

theorem prevRows_of_ne_nil (texts : List (List Nat)) (h : texts ≠ [])
    (cats : List (List Nat × List (List Nat))) :
    prevRows texts cats =
      some (cats.map (fun cat =>
        { category := cat.1, n_comments := category_n cat.2 texts,
          pct_comments := (category_n cat.2 texts : ℚ) / (texts.length : ℚ),
          n_total := texts.length })) := by
  induction cats with
  | nil => rfl
  | cons cat cats ih =>
      have hlen : texts.length ≠ 0 := by
        intro h0
        exact h (List.length_eq_zero.mp h0)
      simp only [prevRows, pyDiv, if_neg hlen, ih, Option.bind_eq_bind,
        Option.some_bind, List.map_cons]
      rfl

/-! ### Claim theorems for the normalizer and matcher -/
/-- C8: the acronym normalizer matches keys only at word boundaries:
"IPAD light show" is left unchanged (the "IPA" inside "IPAD" does not
match), while "classic IPA" becomes "classic india pale ale". -/
theorem word_boundary_correctness :
    normalize (chars "IPAD light show") = chars "IPAD light show" ∧
    normalize (chars "classic IPA") = chars "classic india pale ale" := by
  decide

/-- C3: evaluation at the failing input.  The source's special-case block
only *counts* occurrences of the plural "india pale ales"
(`plural_count = data["Comments"].str.count(...)`) and never applies a
replacement (`ipa_pattern` is defined but unused), so a text containing
the plural form passes through the full normalizer unchanged — it is
counted, not rewritten, contradicting the code's own "Handle special
cases / Plural forms of IPA" comment and the spec. -/
theorem plural_ipa_not_rewritten :
    normalize (chars "india pale ales") = chars "india pale ales" := by
  decide

/-- C1 counterexample: on an empty partition the prevalence computation
does not report 0% — the unguarded division `n / hops_total` raises
`ZeroDivisionError` (modelled by `none`) at the first category row. -/
theorem prevalence_empty_partition_raises :
    hops_prevalence [] = none := by decide

/-- C1 amended: the percentage computation is total only on nonempty
partitions, where every per-category percentage is `count / total`; on an
empty partition it raises (previous theorem) instead of reporting 0%. -/
theorem prevalence_total_on_nonempty (texts : List (List Nat))
    (h : texts ≠ []) :
    ∃ rows, hops_prevalence texts = some rows ∧
      rows.length = descriptor_categories.length ∧
      ∀ r ∈ rows, r.pct_comments = (r.n_comments : ℚ) / (r.n_total : ℚ) := by
  refine ⟨_, prevRows_of_ne_nil texts h descriptor_categories, by simp, ?_⟩
  intro r hr
  simp only [List.mem_map] at hr
  obtain ⟨cat, _, rfl⟩ := hr
  rfl

/-- Witness for `prevalence_total_on_nonempty` at a one-comment partition. -/
theorem prevalence_total_on_nonempty_witness :
    ∃ rows, hops_prevalence [chars "slight onion garlic note"] = some rows ∧
      rows.length = descriptor_categories.length ∧
      ∀ r ∈ rows, r.pct_comments = (r.n_comments : ℚ) / (r.n_total : ℚ) :=
  prevalence_total_on_nonempty [chars "slight onion garlic note"] (by decide)

/-- C10: the dedicated onion/garlic off-flavor analysis and the
"onion garlic" row of the categorical analysis use the same regex
`\b(onion|garlic)\b` and count the same comments, so the reported count
(and hence the reported percentage) is always the same number. -/
theorem onion_garlic_analyses_agree (texts : List (List Nat)) :
    (chars "onion garlic", onion_garlic_pattern) ∈ descriptor_categories ∧
    hops_onion_garlic texts = category_n onion_garlic_pattern texts ∧
    onion_garlic_pct texts =
      (pyDiv (category_n onion_garlic_pattern texts) texts.length).map
        (fun q => q * 100) := by
  refine ⟨by decide, ?_, ?_⟩
  · simp [hops_onion_garlic, category_n, List.countP_eq_length_filter]
  · simp [onion_garlic_pct, hops_onion_garlic, category_n,
      List.countP_eq_length_filter]

/-- C4 counterexample: in the comment "no aroma" the protected token "no"
occurs as a token of the text, yet it does not survive filtering: its
length is 2, so the `len(tok) > 2` filter discards it even though it was
removed from the stopword set.  (Concrete instantiation: whitespace
tokenization — `word_tokenize("no aroma") = ["no", "aroma"]` — identity
lemmatizer and empty base stopword list; the length filter discards "no"
under any instantiation.) -/
theorem protected_no_is_dropped :
    chars "no" ∈ wsSplit (cleanText (chars "no aroma")) ∧
    chars "no" ∉ cleaned_tokens id [] (wsSplit (cleanText (chars "no aroma"))) := by
  decide

/-- C4 amended: the protected negation/intensity markers of length > 2 —
"not", "very", "never" — always survive the stopword and length filters
and appear in the cleaned token sequence (given that the lemmatizer fixes
them, as WordNet's does); "no" alone is discarded by the length filter. -/
theorem protected_long_tokens_survive (lem : List Nat → List Nat)
    (stopBase : List (List Nat)) (toks : List (List Nat)) (tok : List Nat)
    (h1 : tok ∈ [chars "not", chars "very", chars "never"])
    (h2 : tok ∈ toks) (h3 : lem tok = tok) :
    tok ∈ cleaned_tokens lem stopBase toks := by
  have himp : important_words.contains tok = true := by
    fin_cases h1 <;> decide
  have hlen : decide (2 < tok.length) = true := by
    fin_cases h1 <;> decide
  have hcond : (!isStopWord stopBase tok && decide (2 < tok.length)) = true := by
    simp only [isStopWord, himp, Bool.not_true, Bool.and_false, Bool.not_false,
      hlen, Bool.and_self]
  refine List.mem_map.mpr ⟨tok, List.mem_filter.mpr ⟨h2, hcond⟩, h3⟩

/-- Witness for `protected_long_tokens_survive`: "very" survives. -/
theorem protected_long_tokens_survive_witness :
    chars "very" ∈ cleaned_tokens id [chars "the", chars "very"]
      [chars "very", chars "the"] :=
  protected_long_tokens_survive id [chars "the", chars "very"]
    [chars "very", chars "the"] (chars "very") (by decide) (by decide) rfl

/-- C2 counterexample: a record with missing text does not contribute an
empty token sequence to the tokenization pipeline — the unguarded
`text.lower()` raises (`none`), so the analysis is not total on null
text as claimed. -/
theorem null_text_raises_in_tokenization :
    procTextN wsSplit id [] none = none ∧
    procTextN wsSplit id [] none ≠ some [] := by decide

/-- C2 amended: only the first notebook's `word_count` guards missing
text (treating it as zero tokens); the second notebook's analyses —
tokenization/n-gram preprocessing, categorical matching and POS
extraction — have no guard and raise on a null text (modelled by
`none`). -/
theorem null_text_handling (tokenize : List Nat → List (List Nat))
    (lem : List Nat → List Nat) (stopBase : List (List Nat))
    (alts : List (List Nat)) (tagger : List Nat → List (List Nat × List Nat)) :
    word_count tokenize none = 0 ∧
    procTextN tokenize lem stopBase none = none ∧
    searchAnyN alts none = none ∧
    pos_adjectives tagger none = none :=
  ⟨rfl, rfl, rfl, rfl⟩

theorem mem_bigramsOf {g : List Nat} :
    ∀ {ts : List (List Nat)}, g ∈ bigramsOf ts →
      ∃ i a b, ts[i]? = some a ∧ ts[i + 1]? = some b ∧ g = a ++ 32 :: b
  | [], h => absurd h (by simp [bigramsOf])
  | [_], h => absurd h (by simp [bigramsOf])
  | a :: b :: r, h => by
      rw [bigramsOf] at h
      rcases List.mem_cons.mp h with h1 | h2
      · exact ⟨0, a, b, rfl, by simp, h1⟩
      · obtain ⟨i, x, y, h3, h4, h5⟩ := mem_bigramsOf h2
        exact ⟨i + 1, x, y, by simpa using h3, by simpa using h4, h5⟩

theorem mem_trigramsOf {g : List Nat} :
    ∀ {ts : List (List Nat)}, g ∈ trigramsOf ts →
      ∃ i a b c, ts[i]? = some a ∧ ts[i + 1]? = some b ∧ ts[i + 2]? = some c ∧
        g = a ++ 32 :: (b ++ 32 :: c)
  | [], h => absurd h (by simp [trigramsOf])
  | [_], h => absurd h (by simp [trigramsOf])
  | [_, _], h => absurd h (by simp [trigramsOf])
  | a :: b :: c :: r, h => by
      rw [trigramsOf] at h
      rcases List.mem_cons.mp h with h1 | h2
      · exact ⟨0, a, b, c, rfl, by simp, by simp, h1⟩
      · obtain ⟨i, x, y, z, h3, h4, h5, h6⟩ := mem_trigramsOf h2
        exact ⟨i + 1, x, y, z, by simpa using h3, by simpa using h4,
          by simpa using h5, h6⟩

/-- C9: every bigram and trigram in a partition's n-gram stream arises
from adjacent tokens inside a single comment's token sequence — the
n-gram loops run inside the per-comment loop, so no window spans two
source comments. -/
theorem ngram_window_within_one_comment (tokenize : List Nat → List (List Nat))
    (lem : List Nat → List Nat) (stopBase : List (List Nat))
    (texts : List (List Nat)) (g : List Nat) :
    (g ∈ corpusBigrams tokenize lem stopBase texts →
      ∃ text ∈ texts, ∃ i a b,
        (procText tokenize lem stopBase text)[i]? = some a ∧
        (procText tokenize lem stopBase text)[i + 1]? = some b ∧
        g = a ++ 32 :: b) ∧
    (g ∈ corpusTrigrams tokenize lem stopBase texts →
      ∃ text ∈ texts, ∃ i a b c,
        (procText tokenize lem stopBase text)[i]? = some a ∧
        (procText tokenize lem stopBase text)[i + 1]? = some b ∧
        (procText tokenize lem stopBase text)[i + 2]? = some c ∧
        g = a ++ 32 :: (b ++ 32 :: c)) := by
  constructor
  · intro hg
    obtain ⟨l, hl, hgl⟩ := List.mem_flatten.mp hg
    obtain ⟨text, htext, rfl⟩ := List.mem_map.mp hl
    obtain ⟨i, a, b, h3, h4, h5⟩ := mem_bigramsOf hgl
    exact ⟨text, htext, i, a, b, h3, h4, h5⟩
  · intro hg
    obtain ⟨l, hl, hgl⟩ := List.mem_flatten.mp hg
    obtain ⟨text, htext, rfl⟩ := List.mem_map.mp hl
    obtain ⟨i, a, b, c, h3, h4, h5, h6⟩ := mem_trigramsOf hgl
    exact ⟨text, htext, i, a, b, c, h3, h4, h5, h6⟩

/-- Witness for `ngram_window_within_one_comment` on a one-comment
corpus. -/
theorem ngram_window_within_one_comment_witness :
    ∃ text ∈ [chars "ripe stone fruit"], ∃ i a b,
      (procText wsSplit id [] text)[i]? = some a ∧
      (procText wsSplit id [] text)[i + 1]? = some b ∧
      chars "stone fruit" = a ++ 32 :: b :=
  (ngram_window_within_one_comment wsSplit id [] [chars "ripe stone fruit"]
    (chars "stone fruit")).1 (by decide)

theorem perm_flatten {α : Type} {l₁ l₂ : List (List α)} (h : l₁.Perm l₂) :
    l₁.flatten.Perm l₂.flatten := by
  induction h with
  | nil => rfl
  | cons x _ ih => simpa using ih.append_left x
  | swap x y l =>
      simp only [List.flatten_cons]
      exact List.perm_append_comm_assoc y x l.flatten
  | trans _ _ ih1 ih2 => exact ih1.trans ih2

/-- C7: the per-partition aggregate tables are invariant under any
permutation of the input rows: the unigram/bigram/trigram frequency
tables (as maps from n-gram to count) and the per-category prevalence
counts agree between the original and the shuffled input. -/
theorem counts_invariant_under_reordering
    (tokenize : List Nat → List (List Nat)) (lem : List Nat → List Nat)
    (stopBase : List (List Nat)) (v : List Nat)
    (rows rows' : List (List Nat × List Nat)) (hp : rows.Perm rows') :
    (∀ g, (corpusWords tokenize lem stopBase (partitionTexts v rows)).countP (fun x => x == g) =
      (corpusWords tokenize lem stopBase (partitionTexts v rows')).countP (fun x => x == g)) ∧
    (∀ g, (corpusBigrams tokenize lem stopBase (partitionTexts v rows)).countP (fun x => x == g) =
      (corpusBigrams tokenize lem stopBase (partitionTexts v rows')).countP (fun x => x == g)) ∧
    (∀ g, (corpusTrigrams tokenize lem stopBase (partitionTexts v rows)).countP (fun x => x == g) =
      (corpusTrigrams tokenize lem stopBase (partitionTexts v rows')).countP (fun x => x == g)) ∧
    (∀ cat ∈ descriptor_categories,
      category_n cat.2 (partitionTexts v rows) =
        category_n cat.2 (partitionTexts v rows')) := by
  have htexts : (partitionTexts v rows).Perm (partitionTexts v rows') :=
    (hp.filter _).map _
  refine ⟨fun g => ?_, fun g => ?_, fun g => ?_, fun cat _ => ?_⟩
  · exact (perm_flatten (htexts.map _)).countP_eq _
  · exact (perm_flatten (htexts.map _)).countP_eq _
  · exact (perm_flatten (htexts.map _)).countP_eq _
  · exact htexts.countP_eq _

/-- Witness for `counts_invariant_under_reordering` on a two-row swap. -/
theorem counts_invariant_under_reordering_witness :
    (∀ g, (corpusWords wsSplit id [] (partitionTexts (chars "Beer")
        [(chars "Beer", chars "Good"), (chars "Dried Hops", chars "Muted")])).countP (fun x => x == g) =
      (corpusWords wsSplit id [] (partitionTexts (chars "Beer")
        [(chars "Dried Hops", chars "Muted"), (chars "Beer", chars "Good")])).countP (fun x => x == g)) ∧
    (∀ g, (corpusBigrams wsSplit id [] (partitionTexts (chars "Beer")
        [(chars "Beer", chars "Good"), (chars "Dried Hops", chars "Muted")])).countP (fun x => x == g) =
      (corpusBigrams wsSplit id [] (partitionTexts (chars "Beer")
        [(chars "Dried Hops", chars "Muted"), (chars "Beer", chars "Good")])).countP (fun x => x == g)) ∧
    (∀ g, (corpusTrigrams wsSplit id [] (partitionTexts (chars "Beer")
        [(chars "Beer", chars "Good"), (chars "Dried Hops", chars "Muted")])).countP (fun x => x == g) =
      (corpusTrigrams wsSplit id [] (partitionTexts (chars "Beer")
        [(chars "Dried Hops", chars "Muted"), (chars "Beer", chars "Good")])).countP (fun x => x == g)) ∧
    (∀ cat ∈ descriptor_categories,
      category_n cat.2 (partitionTexts (chars "Beer")
        [(chars "Beer", chars "Good"), (chars "Dried Hops", chars "Muted")]) =
      category_n cat.2 (partitionTexts (chars "Beer")
        [(chars "Dried Hops", chars "Muted"), (chars "Beer", chars "Good")])) :=
  counts_invariant_under_reordering wsSplit id [] (chars "Beer")
    [(chars "Beer", chars "Good"), (chars "Dried Hops", chars "Muted")]
    [(chars "Dried Hops", chars "Muted"), (chars "Beer", chars "Good")]
    (List.Perm.swap _ _ _)

theorem stripPfx_append (p s : List Nat) : stripPfx p (p ++ s) = some s := by
  induction p with
  | nil => rfl
  | cons c cs ih => simp [stripPfx, ih]

theorem escStr_cons (c : Nat) (t : List Nat) :
    escStr (c :: t) = escChar c ++ escStr t := by
  simp [escStr]

theorem hexVal_hexDig (m : Nat) (h : m < 16) : hexVal (hexDig m) = some m := by
  unfold hexDig hexVal
  by_cases hm : m < 10
  · rw [if_pos hm, if_pos (by omega)]
    congr 1
    omega
  · rw [if_neg hm, if_neg (by omega), if_pos (by omega)]
    congr 1
    omega

theorem parseStr_quote (r : List Nat) : parseStr (34 :: r) = some ([], r) := by
  rw [parseStr.eq_def]; simp

theorem parseStr_esc34 (r : List Nat) :
    parseStr (92 :: 34 :: r) = (parseStr r).map (fun p => (34 :: p.1, p.2)) := by
  rw [parseStr.eq_def]; simp

theorem parseStr_esc92 (r : List Nat) :
    parseStr (92 :: 92 :: r) = (parseStr r).map (fun p => (92 :: p.1, p.2)) := by
  rw [parseStr.eq_def]; simp

theorem parseStr_esc98 (r : List Nat) :
    parseStr (92 :: 98 :: r) = (parseStr r).map (fun p => (8 :: p.1, p.2)) := by
  rw [parseStr.eq_def]; simp

theorem parseStr_esc116 (r : List Nat) :
    parseStr (92 :: 116 :: r) = (parseStr r).map (fun p => (9 :: p.1, p.2)) := by
  rw [parseStr.eq_def]; simp

theorem parseStr_esc110 (r : List Nat) :
    parseStr (92 :: 110 :: r) = (parseStr r).map (fun p => (10 :: p.1, p.2)) := by
  rw [parseStr.eq_def]; simp

theorem parseStr_esc102 (r : List Nat) :
    parseStr (92 :: 102 :: r) = (parseStr r).map (fun p => (12 :: p.1, p.2)) := by
  rw [parseStr.eq_def]; simp

theorem parseStr_esc114 (r : List Nat) :
    parseStr (92 :: 114 :: r) = (parseStr r).map (fun p => (13 :: p.1, p.2)) := by
  rw [parseStr.eq_def]; simp

theorem parseStr_escU (h1 h2 h3 h4 : Nat) (r : List Nat) :
    parseStr (92 :: 117 :: h1 :: h2 :: h3 :: h4 :: r) = (do
      let a ← hexVal h1
      let b ← hexVal h2
      let cc ← hexVal h3
      let d ← hexVal h4
      let p ← parseStr r
      pure ((a * 4096 + b * 256 + cc * 16 + d) :: p.1, p.2)) := by
  rw [parseStr.eq_def]; simp

theorem parseStr_raw (c : Nat) (r : List Nat) (hc34 : c ≠ 34) (hc92 : c ≠ 92) :
    parseStr (c :: r) = (parseStr r).map (fun p => (c :: p.1, p.2)) := by
  rw [parseStr.eq_def]; simp [hc34, hc92]

theorem parseStr_escape : ∀ (t r : List Nat),
    parseStr (escStr t ++ (34 :: r)) = some (t, r)
  | [], r => by
      rw [show escStr [] ++ (34 :: r) = 34 :: r from by simp [escStr]]
      exact parseStr_quote r
  | c :: t, r => by
      have ih := parseStr_escape t r
      rw [escStr_cons, List.append_assoc]
      unfold escChar
      split_ifs with h34 h92 h8 h9 h10 h12 h13 hctl
      · subst h34
        simp only [List.cons_append, List.nil_append, parseStr_esc34, ih,
          Option.map_some']
      · subst h92
        simp only [List.cons_append, List.nil_append, parseStr_esc92, ih,
          Option.map_some']
      · subst h8
        simp only [List.cons_append, List.nil_append, parseStr_esc98, ih,
          Option.map_some']
      · subst h9
        simp only [List.cons_append, List.nil_append, parseStr_esc116, ih,
          Option.map_some']
      · subst h10
        simp only [List.cons_append, List.nil_append, parseStr_esc110, ih,
          Option.map_some']
      · subst h12
        simp only [List.cons_append, List.nil_append, parseStr_esc102, ih,
          Option.map_some']
      · subst h13
        simp only [List.cons_append, List.nil_append, parseStr_esc114, ih,
          Option.map_some']
      · simp only [List.cons_append, List.nil_append, parseStr_escU]
        rw [show hexVal 48 = some 0 from rfl,
          hexVal_hexDig _ (by omega : c / 16 < 16),
          hexVal_hexDig _ (by omega : c % 16 < 16), ih]
        simp
        omega
      · simp only [List.cons_append, List.nil_append,
          parseStr_raw c _ h34 h92, ih, Option.map_some']

theorem parseItem_item (r : Rec) (rest : List Nat) :
    parseItem (itemText r ++ rest) = some (r, rest) := by
  have h1 : itemText r ++ rest =
      chars "    \x7b\n        \"sample\": \"" ++
        (escStr r.sample ++ (34 :: (chars ",\n        \"text\": \"" ++
          (escStr r.text ++ (34 :: (chars "\n    \x7d" ++ rest)))))) := by
    simp only [itemText, List.append_assoc]
    rfl
  rw [parseItem, h1]
  simp only [stripPfx_append, Option.bind_eq_bind, Option.some_bind,
    parseStr_escape, Option.pure_def]

theorem parseItemsGo_items : ∀ (rs : List Rec) (f : Nat) (tail : List Nat),
    rs ≠ [] → rs.length ≤ f →
    parseItemsGo f (itemsText rs ++ (chars "\n]" ++ tail)) = some (rs, tail)
  | [], _, _, hne, _ => absurd rfl hne
  | [r], f, tail, _, hf => by
      match f, hf with
      | f + 1, _ =>
        have hno : stripPfx (chars ",\n") (chars "\n]" ++ tail) = none := by
          simp [chars, stripPfx]
        rw [parseItemsGo, show itemsText [r] = itemText r from rfl,
          parseItem_item]
        simp only [Option.bind_eq_bind, Option.some_bind, hno, stripPfx_append,
          Option.pure_def]
  | r :: r2 :: rs, f, tail, _, hf => by
      match f, hf with
      | f + 1, hf =>
        have ih := parseItemsGo_items (r2 :: rs) f tail (by simp)
          (by simpa using Nat.lt_of_succ_le hf)
        rw [parseItemsGo, show itemsText (r :: r2 :: rs) =
          itemText r ++ chars ",\n" ++ itemsText (r2 :: rs) from rfl,
          List.append_assoc, List.append_assoc, parseItem_item]
        simp only [Option.bind_eq_bind, Option.some_bind, stripPfx_append, ih,
          Option.pure_def]

theorem length_itemText_pos (r : Rec) : 0 < (itemText r).length := by
  simp [itemText, chars]

theorem length_itemsText (rs : List Rec) :
    rs.length ≤ (itemsText rs).length := by
  match rs with
  | [] => simp [itemsText]
  | [r] =>
      have := length_itemText_pos r
      simpa [itemsText] using this
  | r :: r2 :: rs =>
      have ih := length_itemsText (r2 :: rs)
      have hpos := length_itemText_pos r
      simp only [itemsText, List.length_append, List.length_cons] at *
      omega

/-- C6: the interchange round-trip.  For every corpus, exporting the
projection `{sample, text}` with `json.dump` and reloading the document
with `json.load` yields exactly the projected records, in the original
row order, duplicates retained. -/
theorem export_reload_roundtrip (rows : List SrcRow) :
    json_load (json_dump (records rows)) = some (records rows) := by
  generalize records rows = rs
  match rs with
  | [] => rfl
  | r :: rs =>
      have hne : (r :: rs : List Rec) ≠ [] := by simp
      rw [show json_dump (r :: rs) =
        chars "[\n" ++ (itemsText (r :: rs) ++ chars "\n]") from by
          simp [json_dump]]
      have hlen : (r :: rs).length ≤
          (chars "[\n" ++ (itemsText (r :: rs) ++ chars "\n]")).length := by
        have := length_itemsText (r :: rs)
        simp only [List.length_append]
        omega
      have hne2 : chars "[\n" ++ (itemsText (r :: rs) ++ chars "\n]") ≠
          chars "[]" := by
        intro h
        have h91 : (chars "[\n" ++ (itemsText (r :: rs) ++ chars "\n]"))[1]? =
            (chars "[]")[1]? := by rw [h]
        simp [chars] at h91
      have hitems := parseItemsGo_items (r :: rs)
        ((chars "[\n" ++ (itemsText (r :: rs) ++ chars "\n]")).length) []
        hne hlen
      rw [List.append_nil] at hitems
      rw [json_load, if_neg hne2]
      simp only [Option.bind_eq_bind, Option.some_bind, stripPfx_append,
        hitems, Option.pure_def]
      simp

theorem substGo_zero (key rep : List Nat) (pw : Bool) (s : List Nat) :
    substGo key rep 0 pw s = s := rfl

theorem substGo_nil (key rep : List Nat) (fuel : Nat) (pw : Bool) :
    substGo key rep fuel pw [] = [] := by
  cases fuel <;> rfl

theorem substGo_cons (key rep : List Nat) (f : Nat) (pw : Bool) (c : Nat)
    (rest : List Nat) :
    substGo key rep (f + 1) pw (c :: rest) =
      if hGuardB key pw (c :: rest) then
        rep ++ substGo key rep f true (List.drop key.length (c :: rest))
      else
        c :: substGo key rep f (W c) rest := rfl

theorem noOccB_nil (key : List Nat) (pw : Bool) : noOccB key pw [] = true := rfl

theorem noOccB_cons (key : List Nat) (pw : Bool) (c : Nat) (rest : List Nat) :
    noOccB key pw (c :: rest) =
      (!hGuardB key pw (c :: rest) && noOccB key (W c) rest) := rfl

theorem mapLow_length (s : List Nat) : (mapLow s).length = s.length := by
  simp [mapLow]

theorem hGuardB_parts {key : List Nat} {pw : Bool} {s : List Nat}
    (h : hGuardB key pw s = true) :
    0 < key.length ∧ pw = false ∧ mapLow (s.take key.length) = mapLow key ∧
      nextOkB key.length s = true := by
  rw [hGuardB, Bool.and_eq_true, Bool.and_eq_true, Bool.and_eq_true] at h
  obtain ⟨⟨⟨hk, hpw⟩, hml⟩, hnx⟩ := h
  exact ⟨by simpa using hk, by simpa using hpw, by simpa using hml, hnx⟩

theorem hGuardB_intro {key : List Nat} {pw : Bool} {s : List Nat}
    (hk : 0 < key.length) (hpw : pw = false)
    (hml : mapLow (s.take key.length) = mapLow key)
    (hnx : nextOkB key.length s = true) : hGuardB key pw s = true := by
  rw [hGuardB, Bool.and_eq_true, Bool.and_eq_true, Bool.and_eq_true]
  exact ⟨⟨⟨by simpa using hk, by simp [hpw]⟩, by simpa using hml⟩, hnx⟩

/-- A clean text is a fixed point of one `re.sub` pass. -/
theorem substGo_id (key rep : List Nat) : ∀ (fuel : Nat) (pw : Bool)
    (s : List Nat), noOccB key pw s = true → substGo key rep fuel pw s = s
  | 0, _, _, _ => rfl
  | _ + 1, _, [], _ => rfl
  | f + 1, pw, c :: rest, h => by
      rw [noOccB_cons, Bool.and_eq_true, Bool.not_eq_true'] at h
      rw [substGo_cons, if_neg (by simp [h.1]),
        substGo_id key rep f (W c) rest h.2]

/-- The scan result does not depend on the fuel, when sufficient. -/
theorem substGo_fuel (key rep : List Nat) (hk : 0 < key.length) :
    ∀ (f1 f2 : Nat) (pw : Bool) (s : List Nat), s.length ≤ f1 →
      s.length ≤ f2 → substGo key rep f1 pw s = substGo key rep f2 pw s
  | 0, f2, pw, s, h1, _ => by
      have hs : s = [] := List.length_eq_zero.mp (Nat.le_zero.mp h1)
      subst hs
      rw [substGo_zero, substGo_nil]
  | _ + 1, _, _, [], _, _ => by rw [substGo_nil, substGo_nil]
  | _ + 1, 0, _, c :: rest, _, h2 => by simp at h2
  | f1 + 1, f2 + 1, pw, c :: rest, h1, h2 => by
      rw [substGo_cons, substGo_cons]
      by_cases hg : hGuardB key pw (c :: rest) = true
      · rw [if_pos hg, if_pos hg]
        congr 1
        refine substGo_fuel key rep hk f1 f2 true _ ?_ ?_ <;>
          · rw [List.length_drop]
            simp only [List.length_cons] at *
            omega
      · rw [if_neg hg, if_neg hg]
        congr 1
        refine substGo_fuel key rep hk f1 f2 (W c) rest ?_ ?_ <;>
          · simp only [List.length_cons] at *
            omega

theorem pwAfter_nil (pw : Bool) : pwAfter pw [] = pw := rfl

theorem pwAfter_cons (pw : Bool) (c : Nat) (u : List Nat) :
    pwAfter pw (c :: u) = pwAfter (W c) u := rfl

theorem pwAfter_ne_nil : ∀ (u : List Nat), u ≠ [] → ∀ (pw : Bool),
    pwAfter pw u = wordEnd u
  | [], h, _ => absurd rfl h
  | [c], _, pw => by simp [pwAfter, wordEnd]
  | c :: d :: u, _, pw => by
      rw [pwAfter_cons, pwAfter_ne_nil (d :: u) (by simp) (W c)]
      simp [wordEnd]

theorem wordHead_mapLow (s : List Nat) : wordHead (mapLow s) = wordHead s := by
  unfold wordHead mapLow
  rw [List.head?_map]
  cases s.head? <;> simp [W_low]

theorem wordEnd_mapLow (s : List Nat) : wordEnd (mapLow s) = wordEnd s := by
  unfold wordEnd mapLow
  rw [List.getLast?_map]
  cases s.getLast? <;> simp [W_low]

theorem wordHead_ne_nil {s : List Nat} (h : wordHead s = true) : s ≠ [] := by
  intro hs
  subst hs
  simp [wordHead] at h

/-- A clean scan through `u ++ v` leaves `v` clean (from the boundary
status reached after `u`). -/
theorem noOccB_append (key : List Nat) :
    ∀ (u : List Nat) (pw : Bool) (v : List Nat),
      noOccB key pw (u ++ v) = true → noOccB key (pwAfter pw u) v = true
  | [], _, _, h => h
  | c :: u, pw, v, h => by
      rw [List.cons_append, noOccB_cons, Bool.and_eq_true] at h
      exact noOccB_append key u (W c) v h.2

/-- After a match the scan resumes with `pw = true`, so the head of the
output equals the head of the input. -/
theorem substGo_head (key rep : List Nat) (fuel : Nat) (s : List Nat) :
    (substGo key rep fuel true s).head? = s.head? := by
  match fuel, s with
  | 0, s => rfl
  | _ + 1, [] => rfl
  | f + 1, c :: rest =>
      rw [substGo_cons, if_neg (by simp [hGuardB])]
      rfl

/-- No match can start at a non-word character when the key begins with a
word character. -/
theorem hGuardB_false_head (key : List Nat) (hh : wordHead (mapLow key) = true)
    (d : Nat) (hd : W d = false) (t' : List Nat) (pw : Bool) :
    hGuardB key pw (d :: t') = false := by
  apply Bool.eq_false_iff.mpr
  intro hg
  obtain ⟨hkey, _, hml, _⟩ := hGuardB_parts hg
  have htake : (d :: t').take key.length = d :: t'.take (key.length - 1) := by
    match hkl : key.length with
    | 0 => omega
    | n + 1 => rfl
  rw [htake] at hml
  have h1 : (mapLow (d :: t'.take (key.length - 1))).head? = some (low d) := by
    simp [mapLow]
  rw [hml] at h1
  have hh2 : W (low d) = true := by
    unfold wordHead at hh
    rw [h1] at hh
    exact hh
  rw [W_low, hd] at hh2
  exact Bool.false_ne_true hh2

/-- Cleanliness for `true` boundary status plus a non-word (or absent)
head char gives cleanliness for any boundary status. -/
theorem noOccB_any_pw (key : List Nat) (hh : wordHead (mapLow key) = true)
    (t : List Nat)
    (hth : t.head? = none ∨ ∃ d, t.head? = some d ∧ W d = false)
    (ht : noOccB key true t = true) (pw : Bool) : noOccB key pw t = true := by
  match t with
  | [] => rfl
  | d :: t' =>
      have hd : W d = false := by
        rcases hth with h | ⟨e, he, hw⟩
        · simp at h
        · simp only [List.head?_cons, Option.some.injEq] at he
          rwa [← he] at hw
      rw [noOccB_cons, Bool.and_eq_true] at ht ⊢
      exact ⟨by rw [hGuardB_false_head key hh d hd t' pw]; rfl, ht.2⟩

theorem noSubMatch_spec {K rep : List Nat} (h : noSubMatch K rep = true)
    (i : Nat) (hi : K.length + i ≤ rep.length) :
    mapLow ((rep.drop i).take K.length) ≠ K := by
  intro heq
  have h2 := List.all_eq_true.mp h i (List.mem_range.mpr (by omega))
  simp [heq, hi] at h2

theorem noEndSpan_spec {K rep : List Nat} (h : noEndSpan K rep = true)
    (j : Nat) (hj1 : 1 ≤ j) (hj : j < K.length)
    (hw : W (K.getD j 0) = false) :
    mapLow (rep.drop (rep.length - j)) ≠ K.take j := by
  intro heq
  have h2 := List.all_eq_true.mp h j (List.mem_range.mpr hj)
  simp only [heq, hw, beq_self_eq_true, Bool.or_true, Bool.not_true,
    Bool.or_false, Bool.false_or, beq_iff_eq] at h2
  omega

theorem noStartSpan_spec {K rep : List Nat} (h : noStartSpan K rep = true)
    (j : Nat) (hj : j + 1 < K.length) (hw : W (K.getD j 0) = false) :
    mapLow (rep.take (K.length - (j + 1))) ≠ K.drop (j + 1) := by
  intro heq
  have h2 := List.all_eq_true.mp h j (List.mem_range.mpr (by omega))
  simp only [heq, hw, beq_self_eq_true, Bool.or_true, Bool.not_true,
    Bool.or_false, Bool.false_or, decide_eq_true_eq] at h2
  omega

theorem append_eq_take_drop {u w K : List Nat}
    (h : mapLow u ++ mapLow w = K) :
    K.take u.length = mapLow u ∧ K.drop u.length = mapLow w := by
  subst h
  exact ⟨List.take_left' (mapLow_length u), List.drop_left' (mapLow_length u)⟩

theorem getD_of_drop {K : List Nat} {j d : Nat} {X : List Nat}
    (h : K.drop j = d :: X) : K.getD j 0 = d := by
  have h1 : K[j]? = some d := by
    rw [← List.head?_drop, h]
    rfl
  simp [List.getD, h1]

/-- Scanning from anywhere inside a replacement suffix `r ++ t` never
matches `key`, provided `t` is clean and starts at a non-word character
(or is empty) and the span conditions hold. -/
theorem noOccB_prepend (key rep : List Nat)
    (hh : wordHead (mapLow key) = true)
    (hD1 : noSubMatch (mapLow key) rep = true)
    (hD2 : noEndSpan (mapLow key) rep = true)
    (t : List Nat)
    (hth : t.head? = none ∨ ∃ d, t.head? = some d ∧ W d = false)
    (ht : noOccB key true t = true) :
    ∀ (r : List Nat), r <:+ rep → ∀ (pw : Bool),
      noOccB key pw (r ++ t) = true
  | [], _, pw => by
      rw [List.nil_append]
      exact noOccB_any_pw key hh t hth ht pw
  | c :: r', hsuf, pw => by
      have hKlen : (mapLow key).length = key.length := mapLow_length key
      rw [List.cons_append, noOccB_cons, Bool.and_eq_true]
      refine ⟨?_, noOccB_prepend key rep hh hD1 hD2 t hth ht r'
        ((List.suffix_cons c r').trans hsuf) (W c)⟩
      rw [Bool.not_eq_true']
      apply Bool.eq_false_iff.mpr
      intro hg
      obtain ⟨hkey, hpw, hml0, hnx⟩ := hGuardB_parts hg
      have hml : mapLow (((c :: r') ++ t).take key.length) = mapLow key := hml0
      obtain ⟨u, hu⟩ := hsuf
      have hulen : rep.length = u.length + (c :: r').length := by
        rw [← hu, List.length_append]
      by_cases hle : key.length ≤ (c :: r').length
      · rw [List.take_append_of_le_length hle] at hml
        have hdrop : rep.drop u.length = c :: r' := by
          rw [← hu]
          exact List.drop_left u (c :: r')
        refine noSubMatch_spec hD1 u.length (by omega) ?_
        rw [hdrop, hKlen]
        exact hml
      · push_neg at hle
        rw [List.take_append_eq_append_take,
          List.take_of_length_le (by omega)] at hml
        rw [show mapLow ((c :: r') ++ t.take (key.length - (c :: r').length)) =
          mapLow (c :: r') ++ mapLow (t.take (key.length - (c :: r').length))
          from by simp [mapLow]] at hml
        obtain ⟨htake, hdropK⟩ := append_eq_take_drop hml
        rcases hth with hnone | ⟨d, hd, hwd⟩
        · have htnil : t = [] := List.head?_eq_none_iff.mp hnone
          subst htnil
          rw [List.take_nil] at hdropK
          have hlenK := congrArg List.length hdropK
          simp only [List.length_drop, mapLow_length, List.length_nil,
            hKlen] at hlenK
          omega
        · match t, hd, hdropK with
          | d' :: t'', hd, hdropK =>
            have hdd : d' = d := by
              simp only [List.head?_cons, Option.some.injEq] at hd
              exact hd
            have hk1 : key.length - (c :: r').length =
                (key.length - (c :: r').length - 1) + 1 := by
              simp only [List.length_cons] at hle ⊢
              omega
            rw [hk1, List.take_succ_cons,
              show mapLow (d' :: t''.take (key.length - (c :: r').length - 1)) =
                low d' :: mapLow (t''.take (key.length - (c :: r').length - 1))
                from rfl] at hdropK
            have hgd : (mapLow key).getD (c :: r').length 0 = low d' :=
              getD_of_drop hdropK
            have hwlow : W ((mapLow key).getD (c :: r').length 0) = false := by
              rw [hgd, W_low, hdd, hwd]
            have hrepdrop : rep.drop (rep.length - (c :: r').length) =
                c :: r' := by
              rw [show rep.length - (c :: r').length = u.length from by omega,
                ← hu]
              exact List.drop_left u (c :: r')
            refine noEndSpan_spec hD2 (c :: r').length (by simp) (by omega)
              hwlow ?_
            rw [hrepdrop, htake]

/-- Structure of one pass: either the scan matches nothing (then the text
is clean and unchanged), or the output splits as `a ++ rep ++ rest'`
where `a` is the match-free prefix, the replaced span `m`
case-insensitively equals the key, the character before the span is
non-word (or the span is at the start with `pw = false`), and the
character after the span is non-word (or absent). -/
theorem substGo_shape (key rep : List Nat) (hkey : 0 < key.length) :
    ∀ (fuel : Nat) (pw : Bool) (s : List Nat), s.length ≤ fuel →
      (substGo key rep fuel pw s = s ∧ noOccB key pw s = true) ∨
      ∃ a m y, s = a ++ (m ++ y) ∧ mapLow m = mapLow key ∧
        ((a = [] ∧ pw = false) ∨ ∃ a' cl, a = a' ++ [cl] ∧ W cl = false) ∧
        (y.head? = none ∨ ∃ d, y.head? = some d ∧ W d = false) ∧
        substGo key rep fuel pw s =
          a ++ (rep ++ substGo key rep y.length true y)
  | 0, pw, s, h => by
      have hs : s = [] := List.length_eq_zero.mp (Nat.le_zero.mp h)
      subst hs
      exact Or.inl ⟨rfl, rfl⟩
  | f + 1, pw, [], _ => Or.inl ⟨substGo_nil key rep (f + 1) pw, rfl⟩
  | f + 1, pw, c :: rest, h => by
      by_cases hg : hGuardB key pw (c :: rest) = true
      · right
        obtain ⟨hk0, hpw, hml, hnx⟩ := hGuardB_parts hg
        refine ⟨[], (c :: rest).take key.length, (c :: rest).drop key.length,
          by rw [List.nil_append, List.take_append_drop], hml,
          Or.inl ⟨rfl, hpw⟩, ?_, ?_⟩
        · unfold nextOkB at hnx
          cases hy : ((c :: rest).drop key.length).head? with
          | none => exact Or.inl rfl
          | some d =>
              rw [hy] at hnx
              exact Or.inr ⟨d, rfl, by simpa using hnx⟩
        · rw [List.nil_append, substGo_cons, if_pos hg]
          congr 1
          refine substGo_fuel key rep hkey f _ true _ ?_ (Nat.le_refl _)
          rw [List.length_drop]
          simp only [List.length_cons] at h ⊢
          omega
      · rcases substGo_shape key rep hkey f (W c) rest
          (by simpa using Nat.le_of_succ_le_succ h) with
          ⟨heq, hcl⟩ | ⟨a, m, y, hs, hm, hb, hy, heq⟩
        · left
          constructor
          · rw [substGo_cons, if_neg hg, heq]
          · rw [noOccB_cons, Bool.and_eq_true, Bool.not_eq_true']
            exact ⟨Bool.eq_false_iff.mpr hg, hcl⟩
        · right
          refine ⟨c :: a, m, y, by rw [hs]; rfl, hm, ?_, hy, ?_⟩
          · rcases hb with ⟨ha, hpw'⟩ | ⟨a', cl, ha, hcl⟩
            · subst ha
              exact Or.inr ⟨[], c, rfl, hpw'⟩
            · subst ha
              exact Or.inr ⟨c :: a', cl, rfl, hcl⟩
          · rw [substGo_cons, if_neg hg, heq]
            rfl

theorem goodEnds_parts {s : List Nat} (h : goodEnds s = true) :
    wordHead s = true ∧ wordEnd s = true := by
  rw [goodEnds, Bool.and_eq_true] at h
  exact h

theorem wordHead_pos {s : List Nat} (h : wordHead s = true) : 0 < s.length := by
  cases s with
  | nil => simp [wordHead] at h
  | cons c t => simp

theorem nextOkB_congr {n : Nat} {s s' : List Nat}
    (h : (s.drop n).head? = (s'.drop n).head?) : nextOkB n s = nextOkB n s' := by
  unfold nextOkB
  rw [h]

theorem length_eq_of_mapLow {u v : List Nat} (h : mapLow u = mapLow v) :
    u.length = v.length := by
  have := congrArg List.length h
  simpa [mapLow_length] using this

/-- Core preservation lemma: one `re.sub` pass for `(key, rep)` leaves the
text clean for `key'` — with no hypothesis on the input when
`key' = key` (the pass removes all its own matches), and assuming input
cleanliness otherwise (the pass cannot create a `key'` match). -/
theorem substGo_clean (key' key rep : List Nat)
    (hgk : goodEnds (mapLow key) = true)
    (hgk' : goodEnds (mapLow key') = true)
    (hgr : goodEnds rep = true)
    (hlen : key'.length ≤ rep.length)
    (hD1 : noSubMatch (mapLow key') rep = true)
    (hD2 : noEndSpan (mapLow key') rep = true)
    (hD3 : noStartSpan (mapLow key') rep = true) :
    ∀ (fuel : Nat) (pw : Bool) (s : List Nat), s.length ≤ fuel →
      (key' = key ∨ noOccB key' pw s = true) →
      noOccB key' pw (substGo key rep fuel pw s) = true
  | 0, pw, s, h, _ => by
      have hs : s = [] := List.length_eq_zero.mp (Nat.le_zero.mp h)
      subst hs
      rfl
  | f + 1, pw, [], _, _ => by rw [substGo_nil]; rfl
  | f + 1, pw, c :: rest, hlen1, hcl => by
      have hkpos : 0 < key.length := by
        have := wordHead_pos (goodEnds_parts hgk).1
        rwa [mapLow_length] at this
      have hk'pos : 0 < key'.length := by
        have := wordHead_pos (goodEnds_parts hgk').1
        rwa [mapLow_length] at this
      by_cases hg : hGuardB key pw (c :: rest) = true
      · -- a match at the head: output is rep ++ (pass over the tail)
        obtain ⟨_, hpw, hml, hnx⟩ := hGuardB_parts hg
        rw [substGo_cons, if_pos hg]
        have hylen : ((c :: rest).drop key.length).length ≤ f := by
          rw [List.length_drop]
          simp only [List.length_cons] at hlen1 ⊢
          omega
        have hyh : ((c :: rest).drop key.length).head? = none ∨
            ∃ d, ((c :: rest).drop key.length).head? = some d ∧ W d = false := by
          unfold nextOkB at hnx
          cases hy : ((c :: rest).drop key.length).head? with
          | none => exact Or.inl rfl
          | some d =>
              rw [hy] at hnx
              exact Or.inr ⟨d, rfl, by simpa using hnx⟩
        have hycl : key' = key ∨
            noOccB key' true ((c :: rest).drop key.length) = true := by
          rcases hcl with hk | hcln
          · exact Or.inl hk
          · right
            rw [show c :: rest =
              (c :: rest).take key.length ++ (c :: rest).drop key.length from
              (List.take_append_drop key.length (c :: rest)).symm] at hcln
            have h2 := noOccB_append key' _ pw _ hcln
            have hm_ne : (c :: rest).take key.length ≠ [] := by
              have hl := length_eq_of_mapLow hml
              intro hnil
              rw [hnil] at hl
              simp only [List.length_nil] at hl
              omega
            rwa [pwAfter_ne_nil _ hm_ne pw, ← wordEnd_mapLow, hml,
              (goodEnds_parts hgk).2] at h2
        have hout := substGo_clean key' key rep hgk hgk' hgr hlen hD1 hD2 hD3
          f true ((c :: rest).drop key.length) hylen hycl
        refine noOccB_prepend key' rep (goodEnds_parts hgk').1 hD1 hD2
          (substGo key rep f true ((c :: rest).drop key.length)) ?_ hout rep
          (List.suffix_refl rep) pw
        rw [substGo_head]
        exact hyh
      · -- no match at the head
        rw [substGo_cons, if_neg hg, noOccB_cons, Bool.and_eq_true]
        have htail : key' = key ∨ noOccB key' (W c) rest = true := by
          rcases hcl with hk | hcln
          · exact Or.inl hk
          · right
            rw [noOccB_cons, Bool.and_eq_true] at hcln
            exact hcln.2
        refine ⟨?_, substGo_clean key' key rep hgk hgk' hgr hlen hD1 hD2 hD3
          f (W c) rest (by simpa using Nat.le_of_succ_le_succ hlen1) htail⟩
        rw [Bool.not_eq_true']
        apply Bool.eq_false_iff.mpr
        intro hg'
        obtain ⟨_, hpw, hml', hnx'⟩ := hGuardB_parts hg'
        rcases substGo_shape key rep hkpos f (W c) rest
          (by simpa using Nat.le_of_succ_le_succ hlen1) with
          ⟨hid, _⟩ | ⟨a, m, y, hs, hm, hb, hyh, heqo⟩
        · -- the tail pass was the identity: the output match is an input
          -- match at the head, contradicting the scan guard / cleanliness
          rw [hid] at hml' hnx'
          have hgin : hGuardB key' pw (c :: rest) = true :=
            hGuardB_intro hk'pos hpw hml' hnx'
          rcases hcl with hk | hcln
          · subst hk
            exact hg hgin
          · rw [noOccB_cons, Bool.and_eq_true, Bool.not_eq_true'] at hcln
            rw [hcln.1] at hgin
            exact Bool.false_ne_true hgin
        · -- the tail pass replaced a span: out = (c :: a) ++ (rep ++ out2)
          rw [heqo] at hml' hnx'
          have hform : c :: (a ++ (rep ++ substGo key rep y.length true y)) =
              (c :: a) ++ (rep ++ substGo key rep y.length true y) := rfl
          rw [hform] at hml' hnx'
          have hlast : wordEnd (c :: a) = false := by
            rcases hb with ⟨ha, hwc⟩ | ⟨a', cl, ha, hcl2⟩
            · subst ha
              simpa [wordEnd] using hwc
            · subst ha
              rw [show c :: (a' ++ [cl]) = (c :: a') ++ [cl] from rfl]
              unfold wordEnd
              rw [List.getLast?_concat]
              exact hcl2
          rcases Nat.lt_trichotomy key'.length (c :: a).length with
            hlt | heq1 | hgt
          · -- the output match lies inside the shared prefix c :: a,
            -- so the input has the same match at its head
            have hpre : c :: rest = (c :: a) ++ (m ++ y) := by
              rw [hs]
              rfl
            have htki : mapLow ((c :: rest).take key'.length) = mapLow key' := by
              rw [hpre, List.take_append_of_le_length (by omega)]
              rw [List.take_append_of_le_length (by omega)] at hml'
              exact hml'
            have hnxi : nextOkB key'.length (c :: rest) = true := by
              have hcongr : nextOkB key'.length (c :: rest) =
                  nextOkB key'.length ((c :: a) ++
                    (rep ++ substGo key rep y.length true y)) :=
                nextOkB_congr (by
                  rw [List.head?_drop, List.head?_drop, hpre,
                    List.getElem?_append_left (by omega),
                    List.getElem?_append_left (by omega)])
              rw [hcongr]
              exact hnx'
            have hgin : hGuardB key' pw (c :: rest) = true :=
              hGuardB_intro hk'pos hpw htki hnxi
            rcases hcl with hk | hcln
            · subst hk
              exact hg hgin
            · rw [noOccB_cons, Bool.and_eq_true, Bool.not_eq_true'] at hcln
              rw [hcln.1] at hgin
              exact Bool.false_ne_true hgin
          · -- the output match ends exactly at the junction: the next
            -- character is the head of rep, a word character
            have hdropo : ((c :: a) ++
                (rep ++ substGo key rep y.length true y)).drop key'.length =
                rep ++ substGo key rep y.length true y :=
              List.drop_left' heq1.symm
            obtain ⟨rh, rt, hrep⟩ : ∃ rh rt, rep = rh :: rt := by
              have := wordHead_pos (goodEnds_parts hgr).1
              cases rep with
              | nil => simp at this
              | cons rh rt => exact ⟨rh, rt, rfl⟩
            unfold nextOkB at hnx'
            rw [hdropo, hrep] at hnx'
            simp only [List.cons_append, List.head?_cons] at hnx'
            have hwrh : W rh = true := by
              have := (goodEnds_parts hgr).1
              rw [hrep] at this
              simpa [wordHead] using this
            rw [hwrh] at hnx'
            exact Bool.false_ne_true hnx'
          · -- the output match spans the junction into rep
            have h1 : ((c :: a) ++
                (rep ++ substGo key rep y.length true y)).take key'.length =
                (c :: a) ++ rep.take (key'.length - (c :: a).length) := by
              rw [List.take_append_eq_append_take,
                List.take_of_length_le (by omega)]
              congr 1
              exact List.take_append_of_le_length (by omega)
            rw [h1, show mapLow ((c :: a) ++
              rep.take (key'.length - (c :: a).length)) =
              mapLow (c :: a) ++
                mapLow (rep.take (key'.length - (c :: a).length)) from by
              simp [mapLow]] at hml'
            obtain ⟨htakeK, hdropK⟩ := append_eq_take_drop hml'
            obtain ⟨e, hgl2, hwe⟩ : ∃ e, (c :: a).getLast? = some e ∧
                W e = false := by
              cases hgl2 : (c :: a).getLast? with
              | none =>
                  exact absurd (List.getLast?_eq_none_iff.mp hgl2) (by simp)
              | some e =>
                  refine ⟨e, rfl, ?_⟩
                  unfold wordEnd at hlast
                  rw [hgl2] at hlast
                  exact hlast
            have hgd : (mapLow key').getD a.length 0 = low e := by
              have hidx : a.length < (mapLow (c :: a)).length := by
                rw [mapLow_length]
                simp
              have hgl : (mapLow key')[a.length]? =
                  (mapLow (c :: a))[a.length]? := by
                rw [← hml']
                exact List.getElem?_append_left hidx
              have hglast : (mapLow (c :: a))[a.length]? = some (low e) := by
                rw [show a.length = (mapLow (c :: a)).length - 1 from by
                  rw [mapLow_length]; simp, ← List.getLast?_eq_getElem?]
                unfold mapLow
                rw [List.getLast?_map, hgl2]
                rfl
              simp [List.getD, hgl, hglast]
            have hwgd : W ((mapLow key').getD a.length 0) = false := by
              rw [hgd, W_low]
              exact hwe
            refine noStartSpan_spec hD3 a.length
              (by rw [mapLow_length]
                  simp only [List.length_cons] at hgt
                  omega)
              hwgd ?_
            rw [show (mapLow key').length - (a.length + 1) =
              key'.length - (c :: a).length from by
              rw [mapLow_length]; simp only [List.length_cons],
              show a.length + 1 = (c :: a).length from by simp]
            exact hdropK.symm

theorem pairOK_parts {key' key rep : List Nat} (h : pairOK key' key rep = true) :
    goodEnds (mapLow key) = true ∧ goodEnds (mapLow key') = true ∧
      goodEnds rep = true ∧ key'.length ≤ rep.length ∧
      noSubMatch (mapLow key') rep = true ∧ noEndSpan (mapLow key') rep = true ∧
      noStartSpan (mapLow key') rep = true := by
  simp only [pairOK, Bool.and_eq_true, decide_eq_true_eq] at h
  obtain ⟨⟨⟨⟨⟨⟨h1, h2⟩, h3⟩, h4⟩, h5⟩, h6⟩, h7⟩ := h
  exact ⟨h1, h2, h3, h4, h5, h6, h7⟩

/-- One pass for `(key, rep)` leaves the text clean for `key` itself. -/
theorem subst_establishes (key rep : List Nat)
    (h : pairOK key key rep = true) (t : List Nat) :
    noOccB key false (subst key rep t) = true := by
  obtain ⟨h1, h2, h3, h4, h5, h6, h7⟩ := pairOK_parts h
  exact substGo_clean key key rep h1 h2 h3 h4 h5 h6 h7 t.length false t
    (Nat.le_refl _) (Or.inl rfl)

/-- One pass for `(key, rep)` preserves cleanliness for `key'`. -/
theorem subst_preserves (key' key rep : List Nat)
    (h : pairOK key' key rep = true) (t : List Nat)
    (ht : noOccB key' false t = true) :
    noOccB key' false (subst key rep t) = true := by
  obtain ⟨h1, h2, h3, h4, h5, h6, h7⟩ := pairOK_parts h
  exact substGo_clean key' key rep h1 h2 h3 h4 h5 h6 h7 t.length false t
    (Nat.le_refl _) (Or.inr ht)

theorem applyRules_preserves (key' : List Nat) :
    ∀ (rs : List (List Nat × List Nat)) (t : List Nat),
      (∀ kr ∈ rs, pairOK key' kr.1 kr.2 = true) →
      noOccB key' false t = true →
      noOccB key' false (applyRules rs t) = true
  | [], _, _, ht => ht
  | kr :: rs, t, hall, ht =>
      applyRules_preserves key' rs (subst kr.1 kr.2 t)
        (fun x hx => hall x (List.mem_cons_of_mem _ hx))
        (subst_preserves key' kr.1 kr.2 (hall kr (List.mem_cons_self _ _)) t ht)

/-- A pass sequence over a text clean for all its keys is the identity. -/
theorem applyRules_id :
    ∀ (rs : List (List Nat × List Nat)) (t : List Nat),
      (∀ kr ∈ rs, noOccB kr.1 false t = true) → applyRules rs t = t
  | [], _, _ => rfl
  | kr :: rs, t, hall => by
      have h1 : subst kr.1 kr.2 t = t :=
        substGo_id kr.1 kr.2 t.length false t (hall kr (List.mem_cons_self _ _))
      show applyRules rs (subst kr.1 kr.2 t) = t
      rw [h1]
      exact applyRules_id rs t (fun x hx => hall x (List.mem_cons_of_mem _ hx))

/-- After applying a pass sequence whose pairs are all compatible, the
result is clean for every key of the sequence. -/
theorem applyRules_makes_clean :
    ∀ (rs : List (List Nat × List Nat)) (t : List Nat),
      (∀ kr ∈ rs, ∀ kr2 ∈ rs, pairOK kr.1 kr2.1 kr2.2 = true) →
      ∀ kr ∈ rs, noOccB kr.1 false (applyRules rs t) = true
  | [], _, _, _, hkr => absurd hkr (by simp)
  | kr0 :: rs, t, hpairs, kr, hkr => by
      show noOccB kr.1 false (applyRules rs (subst kr0.1 kr0.2 t)) = true
      rcases List.mem_cons.mp hkr with heq | hmem
      · subst heq
        refine applyRules_preserves kr.1 rs (subst kr.1 kr.2 t)
          (fun x hx => hpairs kr (List.mem_cons_self _ _) x
            (List.mem_cons_of_mem _ hx)) ?_
        exact subst_establishes kr.1 kr.2
          (hpairs kr (List.mem_cons_self _ _) kr (List.mem_cons_self _ _)) t
      · exact applyRules_makes_clean rs (subst kr0.1 kr0.2 t)
          (fun x hx y hy => hpairs x (List.mem_cons_of_mem _ hx) y
            (List.mem_cons_of_mem _ hy)) kr hmem

/-- C5: the acronym normalizer is idempotent — applying the full
normalization (the eight acronym replacements in map order, then the
`ohai` special case) twice yields the same output as applying it once,
for every comment text.  (The only other special case merely counts and
never rewrites, so it cannot break idempotence.) -/
theorem acronym_normalizer_idempotent (s : List Nat) :
    normalize (normalize s) = normalize s := by
  apply applyRules_id
  intro kr hkr
  exact applyRules_makes_clean rules s (by decide) kr hkr

end HopsSensory
